import Mathlib

/-!
Verification development for the CyberSearch query-generation core.

The TypeScript source consists of a `SearchEngineCore` object
(`sanitizeInput`, `isSyntaxSafe`, `processTerm`) and an `executeSearch`
routine that builds a batch of search URLs from a processed term and
three numeric parameters (vector count, density, page offset).  The
definitions below are a shallow embedding of that code: strings are
`List Char` wrapped in `String`, the JS `for` loops become folds over
`List.range`, and JS number arithmetic (always integral here) becomes
`Int`/`Nat` arithmetic.
-/

/-- The backslash character, written by code point to keep literals simple. -/
def bsChar : Char := Char.ofNat 92

/-- The ASCII apostrophe, produced by the sanitizer for curly single quotes. -/
def aposChar : Char := Char.ofNat 39

/-- The ASCII double quote, produced by the sanitizer for curly double quotes. -/
def quotChar : Char := Char.ofNat 34

/-- Per-character action of `sanitizeInput`'s three regex replacements:
control characters (0x00-0x1F, 0x7F) are deleted, curly single quotes
(U+2018/U+2019) become an apostrophe, curly double quotes (U+201C/U+201D)
become a straight double quote, everything else is kept.  The three
replacements act on pairwise disjoint character classes whose outputs lie
in none of the classes, so a single pass is equivalent to the source's
three sequential passes. -/
def sanitizeChar (c : Char) : Option Char :=
  if c.toNat ≤ 31 || c.toNat == 127 then none
  else if c.toNat == 0x2018 || c.toNat == 0x2019 then some aposChar
  else if c.toNat == 0x201C || c.toNat == 0x201D then some quotChar
  else some c

/-- JavaScript's `String.prototype.trim` whitespace class: WhiteSpace and
LineTerminator code points. -/
def jsWhitespace (c : Char) : Bool :=
  c.toNat == 9 || c.toNat == 10 || c.toNat == 11 || c.toNat == 12 ||
  c.toNat == 13 || c.toNat == 32 || c.toNat == 160 || c.toNat == 0x1680 ||
  (0x2000 ≤ c.toNat && c.toNat ≤ 0x200A) || c.toNat == 0x2028 ||
  c.toNat == 0x2029 || c.toNat == 0x202F || c.toNat == 0x205F ||
  c.toNat == 0x3000 || c.toNat == 0xFEFF

/-- Remove trailing JS whitespace. -/
def trimRight (l : List Char) : List Char :=
  (l.reverse.dropWhile jsWhitespace).reverse

/-- JS `trim`: remove leading and trailing whitespace. -/
def trimList (l : List Char) : List Char :=
  trimRight (l.dropWhile jsWhitespace)

/-- `SearchEngineCore.sanitizeInput`: the three replacements followed by
`trim`. -/
def sanitizeInput (s : String) : String :=
  ⟨trimList (s.data.filterMap sanitizeChar)⟩

/-- One step of `isSyntaxSafe`'s loop body on the depth counter. -/
def parenStep (stack : Int) (c : Char) : Int :=
  if c = '(' then stack + 1 else if c = ')' then stack - 1 else stack

/-- The loop of `isSyntaxSafe`: update the counter for the current
character, return `false` as soon as it goes negative, and at the end
check that it is zero. -/
def syntaxGo (stack : Int) : List Char → Bool
  | [] => stack == 0
  | c :: rest =>
    if parenStep stack c < 0 then false else syntaxGo (parenStep stack c) rest

/-- `SearchEngineCore.isSyntaxSafe`. -/
def isSyntaxSafe (s : String) : Bool :=
  syntaxGo 0 s.data

/-- Whether a character is one of the two tracked parentheses. -/
def isParen (c : Char) : Bool :=
  c == '(' || c == ')'

/-- Per-character action of the escaping regex replace in `processTerm`:
each parenthesis is prefixed with a backslash. -/
def escChar (c : Char) : List Char :=
  if isParen c then [bsChar, c] else [c]

/-- `SearchEngineCore.processTerm`: identity on syntax-safe terms,
otherwise escape every parenthesis. -/
def processTerm (term : String) : String :=
  if isSyntaxSafe term then term else ⟨term.data.flatMap escChar⟩

/-- JS `term.split(' ')` on a character list: split on the single space
character, keeping empty segments. -/
def splitSp : List Char → List (List Char)
  | [] => [[]]
  | c :: rest =>
    match splitSp rest with
    | [] => [[c]]
    | h :: t => if c = ' ' then [] :: h :: t else (c :: h) :: t

/-- `processedTerm.split(' ').length` from `executeSearch`. -/
def wordCount (term : String) : Nat :=
  (splitSp term.data).length

/-- `decayFactor = Math.max(32 - wordCount, 1)`. -/
def decayFactor (term : String) : Int :=
  max (32 - (wordCount term : Int)) 1

/-- `iterations = Math.max(density - i * decayFactor, 1)` for vector
index `i`. -/
def iterationsAt (term : String) (density : Nat) (i : Nat) : Int :=
  max ((density : Int) - (i : Int) * decayFactor term) 1

/-- Decimal digit characters. -/
def digitChar : Nat → Char
  | 0 => '0'
  | 1 => '1'
  | 2 => '2'
  | 3 => '3'
  | 4 => '4'
  | 5 => '5'
  | 6 => '6'
  | 7 => '7'
  | 8 => '8'
  | _ => '9'

/-- Fuel-driven digit expansion; the fuel only bounds the recursion depth
so that the definition is structural and kernel-reducible. -/
def natToDigitsAux : Nat → Nat → List Char
  | 0, _ => []
  | fuel + 1, n =>
    if n < 10 then [digitChar n]
    else natToDigitsAux fuel (n / 10) ++ [digitChar (n % 10)]

/-- Decimal representation of a natural number, most significant digit
first; models JS `ii.toString()` (the loop indices are non-negative
integers). -/
def natToDigits (n : Nat) : List Char :=
  natToDigitsAux (n + 1) n

/-- The fixed head of the template `site:*.*.%NUM%.* |`, before the
substituted number. -/
def siteHead : List Char := ['s', 'i', 't', 'e', ':', '*', '.', '*', '.']

/-- The fixed tail of the template, after the substituted number. -/
def siteTail : List Char := ['.', '*', ' ', '|']

/-- `template.replace('%NUM%', ii.toString())`: one site clause fragment. -/
def fragChars (ii : Nat) : List Char :=
  siteHead ++ natToDigits ii ++ siteTail

/-- The inner `for (let ii = 0; ii < iterations; ii++)` loop accumulating
`queryPart` by string concatenation. -/
def queryPartLoop (n : Nat) : List Char :=
  (List.range n).foldl (fun acc ii => acc ++ fragChars ii) []

/-- `queryPart.slice(0, -1)` on the loop's result: JS `slice(0, -1)` drops
the final UTF-16 code unit and is total (on the empty string it returns
the empty string); the clause strings are ASCII, so dropping the last
list element is an exact model. -/
def queryPartAt (term : String) (density : Nat) (i : Nat) : String :=
  ⟨(queryPartLoop (iterationsAt term density i).toNat).dropLast⟩

/-- `finalQuery = (term) (queryPart)` for vector index `i`. -/
def finalQueryAt (term : String) (density : Nat) (i : Nat) : String :=
  "(" ++ term ++ ") (" ++ queryPartAt term density i ++ ")"

/-- Characters left verbatim by `encodeURIComponent`: ASCII alphanumerics
and `- _ . ! ~ * ' ( )`. -/
def isUnreserved (c : Char) : Bool :=
  ('A' ≤ c && c ≤ 'Z') || ('a' ≤ c && c ≤ 'z') || ('0' ≤ c && c ≤ '9') ||
  c == '-' || c == '_' || c == '.' || c == '!' || c == '~' || c == '*' ||
  c == aposChar || c == '(' || c == ')'

/-- Uppercase hexadecimal digit characters, as emitted by
`encodeURIComponent`. -/
def hexChar (n : Nat) : Char :=
  if n < 10 then digitChar n
  else if n == 10 then 'A'
  else if n == 11 then 'B'
  else if n == 12 then 'C'
  else if n == 13 then 'D'
  else if n == 14 then 'E'
  else 'F'

/-- UTF-8 bytes of a Unicode scalar value (`Char` excludes surrogates, so
the four standard ranges cover every character). -/
def utf8Bytes (n : Nat) : List Nat :=
  if n < 0x80 then [n]
  else if n < 0x800 then [0xC0 + n / 64, 0x80 + n % 64]
  else if n < 0x10000 then [0xE0 + n / 4096, 0x80 + n / 64 % 64, 0x80 + n % 64]
  else [0xF0 + n / 262144, 0x80 + n / 4096 % 64, 0x80 + n / 64 % 64, 0x80 + n % 64]

/-- Percent-escape of one byte: `%` followed by two uppercase hex digits. -/
def pctChars (b : Nat) : List Char :=
  ['%', hexChar (b / 16), hexChar (b % 16)]

/-- Action of `encodeURIComponent` on one character. -/
def encodeChar (c : Char) : List Char :=
  if isUnreserved c then [c] else (utf8Bytes c.toNat).flatMap pctChars

/-- JS `encodeURIComponent`. -/
def encodeURIComponent (s : String) : String :=
  ⟨s.data.flatMap encodeChar⟩

/-- The URL of vector index `i` as assembled in `executeSearch`. -/
def vectorUrl (term : String) (density pageOffset : Nat) (i : Nat) : String :=
  "https://www.google.com/search?q=" ++
    encodeURIComponent (finalQueryAt term density i) ++
    "&start=" ++ ⟨natToDigits (pageOffset * 10)⟩

/-- The generation parameters of the v2.5.0 control deck. -/
structure GenerationParams where
  vectorCount : Nat
  density : Nat
  pageOffset : Nat

/-- The documented slider bounds on the parameters. -/
def paramsInBounds (p : GenerationParams) : Prop :=
  1 ≤ p.vectorCount ∧ p.vectorCount ≤ 20 ∧
  128 ≤ p.density ∧ p.density ≤ 1024 ∧ p.pageOffset ≤ 9

/-- The outer `for (let i = 0; i < vectorCount; i++)` loop of
`executeSearch`, collecting `generatedUrls`. -/
def buildVectors (term : String) (p : GenerationParams) : List String :=
  (List.range p.vectorCount).map (fun i => vectorUrl term p.density p.pageOffset i)

/-- Diagnostic kinds emitted around a generation request. -/
inductive DiagKind
  | sanitized
  | unbalancedSyntax
  | densityRisk
  | popupBlocked
deriving DecidableEq

/-- The advisory log lines of `executeSearch` (lines 94-96 of the v2.5.0
variant): sanitization changed the input, the clean term is unbalanced,
the density exceeds 600. -/
def requestDiagnostics (raw : String) (density : Nat) : List DiagKind :=
  (if sanitizeInput raw = raw then [] else [DiagKind.sanitized]) ++
  (if isSyntaxSafe (sanitizeInput raw) then [] else [DiagKind.unbalancedSyntax]) ++
  (if 600 < density then [DiagKind.densityRisk] else [])

/-- The non-floored inner loop bound `257 - i * o` of the v2.3.0 variant
(`App.tsx`), which has no `Math.max(..., 1)` floor and a fixed density
of 257. -/
def iterationsNoFloor (term : String) (i : Nat) : Int :=
  257 - (i : Int) * decayFactor term

/-- `queryPart` of the v2.3.0 variant: the loop runs `257 - i*o` times
(zero times when that bound is not positive), then one character is
sliced off. -/
def queryPartV23 (term : String) (i : Nat) : String :=
  ⟨(queryPartLoop (iterationsNoFloor term i).toNat).dropLast⟩

/-- A URL of the v2.3.0 variant (no `start` parameter; 10 vectors). -/
def vectorUrlV23 (term : String) (i : Nat) : String :=
  "https://www.google.com/search?q=" ++
    encodeURIComponent ("(" ++ term ++ ") (" ++ queryPartV23 term i ++ ")")

/-- The URL list of the v2.3.0 variant (`maxUrls = 10`). -/
def buildVectorsV23 (term : String) : List String :=
  (List.range 10).map (fun i => vectorUrlV23 term i)

/-- Numeric value of a decimal digit string, used to state that the
`start` parameter's numeral denotes the intended number. -/
def digitsToNat (l : List Char) : Nat :=
  l.foldl (fun a c => 10 * a + (c.toNat - 48)) 0

/-- The pattern `site:` marking the start of one site clause. -/
def sitePat : List Char := ['s', 'i', 't', 'e', ':']

/-- Number of positions at which `pat` occurs as a contiguous substring. -/
def countOcc (pat : List Char) : List Char → Nat
  | [] => 0
  | c :: rest => (if pat.isPrefixOf (c :: rest) then 1 else 0) + countOcc pat rest

/-- The truncated final fragment left by `slice(0, -1)`: the closing `|`
is gone, the space before it survives. -/
def truncFrag (k : Nat) : List Char :=
  siteHead ++ natToDigits k ++ ['.', '*', ' ']

/-- Contribution of one character to the parenthesis depth. -/
def parenDelta (c : Char) : Int :=
  if c = '(' then 1 else if c = ')' then -1 else 0

/-- Parenthesis balance of a character list: opening minus closing count. -/
def parenBal (l : List Char) : Int :=
  (l.count '(' : Int) - (l.count ')' : Int)

/-- The spec's wording for the syntax checker: the depth counter never
goes negative on any prefix and is exactly zero at the end. -/
def balancedSpec (s : String) : Prop :=
  (∀ pre suf : List Char, pre ++ suf = s.data → 0 ≤ parenBal pre) ∧
  parenBal s.data = 0

/-- Scanning check, carrying the previous character: every parenthesis
must be immediately preceded by a backslash. -/
def pOK : Char → List Char → Bool
  | _, [] => true
  | prev, c :: rest => (if isParen c then prev == bsChar else true) && pOK c rest

/-- Top-level form of the check: the first character may not be a
parenthesis (it has no predecessor), every later parenthesis must follow
a backslash. -/
def escapedOK : List Char → Bool
  | [] => true
  | c :: rest => !(isParen c) && pOK c rest

/-- Remove each backslash that immediately precedes a parenthesis. -/
def unesc : List Char → List Char
  | [] => []
  | [c] => [c]
  | c :: d :: rest =>
    if c == bsChar && isParen d then d :: unesc rest
    else c :: unesc (d :: rest)

/-! ## Basic facts about the generated list -/

theorem length_buildVectors (term : String) (p : GenerationParams) :
    (buildVectors term p).length = p.vectorCount := by
  simp [buildVectors]

theorem getElem_buildVectors (term : String) (p : GenerationParams) (i : Nat)
    (h : i < (buildVectors term p).length) :
    (buildVectors term p)[i] = vectorUrl term p.density p.pageOffset i := by
  simp [buildVectors]

/-! ## Decimal digits -/

theorem digitChar_toNat (d : Nat) (h : d < 10) : (digitChar d).toNat = 48 + d := by
  interval_cases d <;> rfl

theorem digitsToNat_append (l : List Char) (c : Char) :
    digitsToNat (l ++ [c]) = 10 * digitsToNat l + (c.toNat - 48) := by
  simp [digitsToNat, List.foldl_append]

theorem natToDigitsAux_fuel (fuel : Nat) : ∀ f2 n, n < fuel → n < f2 →
    natToDigitsAux fuel n = natToDigitsAux f2 n := by
  induction fuel with
  | zero => intro f2 n h1 _; omega
  | succ fuel ih =>
    intro f2 n h1 h2
    cases f2 with
    | zero => omega
    | succ f2 =>
      rw [natToDigitsAux, natToDigitsAux]
      by_cases h10 : n < 10
      · rw [if_pos h10, if_pos h10]
      · rw [if_neg h10, if_neg h10, ih f2 (n / 10) (by omega) (by omega)]

theorem natToDigits_unfold (n : Nat) : natToDigits n =
    if n < 10 then [digitChar n]
    else natToDigits (n / 10) ++ [digitChar (n % 10)] := by
  rw [natToDigits, natToDigitsAux]
  by_cases h10 : n < 10
  · rw [if_pos h10, if_pos h10]
  · rw [if_neg h10, if_neg h10, natToDigits,
      natToDigitsAux_fuel n (n / 10 + 1) (n / 10) (by omega) (by omega)]

theorem digitsToNat_natToDigits (n : Nat) : digitsToNat (natToDigits n) = n := by
  induction n using Nat.strong_induction_on with
  | _ n ih =>
    rw [natToDigits_unfold]
    split
    · rename_i h
      simp [digitsToNat, digitChar_toNat n h]
    · rename_i h
      rw [digitsToNat_append, ih (n / 10) (Nat.div_lt_self (by omega) (by omega)),
        digitChar_toNat (n % 10) (Nat.mod_lt _ (by omega))]
      omega

theorem digitChar_mem (d : Nat) :
    digitChar d ∈ ['0', '1', '2', '3', '4', '5', '6', '7', '8', '9'] := by
  match d with
  | 0 | 1 | 2 | 3 | 4 | 5 | 6 | 7 | 8 => decide
  | n + 9 => simp [digitChar]

theorem mem_natToDigits (n : Nat) (c : Char) (h : c ∈ natToDigits n) :
    c ∈ ['0', '1', '2', '3', '4', '5', '6', '7', '8', '9'] := by
  induction n using Nat.strong_induction_on with
  | _ n ih =>
    rw [natToDigits_unfold] at h
    split at h
    · simp at h
      exact h ▸ digitChar_mem n
    · rcases List.mem_append.mp h with h1 | h1
      · exact ih (n / 10) (Nat.div_lt_self (by omega) (by omega)) h1
      · simp at h1
        exact h1 ▸ digitChar_mem (n % 10)

/-! ## The clause string as a concatenation of fragments -/

theorem foldl_append_frag (l : List Nat) (init : List Char) :
    l.foldl (fun acc ii => acc ++ fragChars ii) init = init ++ (l.map fragChars).flatten := by
  induction l generalizing init with
  | nil => simp
  | cons k l ih => simp [List.foldl_cons, ih, List.append_assoc]

theorem queryPartLoop_eq (n : Nat) :
    queryPartLoop n = ((List.range n).map fragChars).flatten := by
  simpa [queryPartLoop] using foldl_append_frag (List.range n) []

/-! ## Counting occurrences of the `site:` pattern -/

theorem isPrefixOf_append_of_le (p : List Char) :
    ∀ (s b : List Char), p.length ≤ s.length → p.isPrefixOf (s ++ b) = p.isPrefixOf s := by
  induction p with
  | nil => intro s b _; simp [List.isPrefixOf]
  | cons x p ih =>
    intro s b h
    cases s with
    | nil => simp at h
    | cons y s =>
      simp only [List.cons_append, List.isPrefixOf, List.append_eq]
      rw [ih s b (by simpa using h)]

theorem isPrefixOf_cons_of_ne (p : List Char) (x c : Char) (l : List Char)
    (h : x ≠ c) : (x :: p).isPrefixOf (c :: l) = false := by
  simp [List.isPrefixOf, h]

theorem countOcc_append (a b : List Char)
    (H : ∀ t s c u, t ++ s = a → s = c :: u → s.length < 5 → c ≠ 's') :
    countOcc sitePat (a ++ b) = countOcc sitePat a + countOcc sitePat b := by
  induction a with
  | nil => simp [countOcc]
  | cons c a ih =>
    have Ha : ∀ t s c2 u, t ++ s = a → s = c2 :: u → s.length < 5 → c2 ≠ 's' := by
      intro t s c2 u h1 h2 h3
      exact H (c :: t) s c2 u (by rw [List.cons_append, h1]) h2 h3
    have hhead : sitePat.isPrefixOf (c :: (a ++ b)) = sitePat.isPrefixOf (c :: a) := by
      by_cases hlen : 5 ≤ (c :: a).length
      · have := isPrefixOf_append_of_le sitePat (c :: a) b (by simpa [sitePat] using hlen)
        simpa [List.cons_append] using this
      · have hc : c ≠ 's' := H [] (c :: a) c a rfl rfl (by omega)
        rw [show sitePat = 's' :: ['i', 't', 'e', ':'] from rfl]
        rw [isPrefixOf_cons_of_ne _ _ _ _ (fun h2 => hc h2.symm),
          isPrefixOf_cons_of_ne _ _ _ _ (fun h2 => hc h2.symm)]
    calc countOcc sitePat ((c :: a) ++ b)
        = (if sitePat.isPrefixOf (c :: (a ++ b)) then 1 else 0) + countOcc sitePat (a ++ b) := by
          simp [countOcc]
      _ = (if sitePat.isPrefixOf (c :: a) then 1 else 0) +
            (countOcc sitePat a + countOcc sitePat b) := by rw [hhead, ih Ha]
      _ = countOcc sitePat (c :: a) + countOcc sitePat b := by
          simp [countOcc]; omega

theorem countOcc_eq_zero (l : List Char) (h : ∀ c ∈ l, c ≠ 's') :
    countOcc sitePat l = 0 := by
  induction l with
  | nil => rfl
  | cons c l ih =>
    have hc : c ≠ 's' := h c (List.mem_cons_self c l)
    rw [countOcc, show sitePat = 's' :: ['i', 't', 'e', ':'] from rfl,
      isPrefixOf_cons_of_ne _ _ _ _ (fun h2 => hc h2.symm)]
    simpa using ih (fun d hd => h d (List.mem_cons_of_mem c hd))

theorem suffix_short (x y t s : List Char) (h : t ++ s = x ++ y)
    (hl : s.length ≤ y.length) : ∃ t2, t2 ++ s = y := by
  rcases List.append_eq_append_iff.mp h with ⟨m, _, hs⟩ | ⟨m, _, hy⟩
  · have hlen : s.length = m.length + y.length := by rw [hs]; simp
    have hm : m = [] := List.length_eq_zero.mp (by omega)
    exact ⟨[], by simp [hs, hm]⟩
  · exact ⟨m, hy.symm⟩

theorem mem_siteTail_ne_s (c : Char) (h : c ∈ siteTail) : c ≠ 's' := by
  simp [siteTail] at h
  rcases h with rfl | rfl | rfl | rfl <;> decide

theorem frag_short_suffix (k : Nat) :
    ∀ t s c u, t ++ s = fragChars k → s = c :: u → s.length < 5 → c ≠ 's' := by
  intro t s c u ht hs hl
  have h4 : s.length ≤ siteTail.length := by simp [siteTail]; omega
  have hfrag : fragChars k = (siteHead ++ natToDigits k) ++ siteTail := by
    simp [fragChars, List.append_assoc]
  rcases suffix_short (siteHead ++ natToDigits k) siteTail t s (by rw [ht, hfrag]) h4
    with ⟨t2, ht2⟩
  apply mem_siteTail_ne_s
  rw [← ht2, hs]
  exact List.mem_append_right t2 (List.mem_cons_self c u)

theorem mem_digits_ne (n : Nat) (c : Char) (h : c ∈ natToDigits n) :
    c ≠ 's' ∧ c ≠ ':' ∧ c ≠ '|' := by
  have := mem_natToDigits n c h
  simp at this
  rcases this with rfl | rfl | rfl | rfl | rfl | rfl | rfl | rfl | rfl | rfl <;> decide

/-- The characters after the leading `s` of a fragment, with an arbitrary
continuation `tail` drawn from the fragment's own trailing characters. -/
theorem countOcc_fragRest (k : Nat) (tail : List Char)
    (htail : ∀ c ∈ tail, c ≠ 's') :
    countOcc sitePat (['i', 't', 'e', ':', '*', '.', '*', '.'] ++ natToDigits k ++ tail) = 0 := by
  apply countOcc_eq_zero
  intro c hc
  rcases List.mem_append.mp hc with hc1 | hc1
  · rcases List.mem_append.mp hc1 with hc2 | hc2
    · simp at hc2
      rcases hc2 with rfl | rfl | rfl | rfl | rfl | rfl | rfl | rfl <;> decide
    · exact (mem_digits_ne k c hc2).1
  · exact htail c hc1

theorem countOcc_site_cons (k : Nat) (tail : List Char)
    (htail : ∀ c ∈ tail, c ≠ 's') :
    countOcc sitePat (siteHead ++ natToDigits k ++ tail) = 1 := by
  have hshape : siteHead ++ natToDigits k ++ tail =
      's' :: (['i', 't', 'e', ':', '*', '.', '*', '.'] ++ natToDigits k ++ tail) := by
    simp [siteHead]
  rw [hshape, countOcc]
  have hpre : sitePat.isPrefixOf
      ('s' :: (['i', 't', 'e', ':', '*', '.', '*', '.'] ++ natToDigits k ++ tail)) = true := by
    simp [sitePat, List.isPrefixOf]
  rw [hpre, countOcc_fragRest k tail htail]
  simp

theorem countOcc_frag (k : Nat) : countOcc sitePat (fragChars k) = 1 := by
  exact countOcc_site_cons k siteTail mem_siteTail_ne_s

theorem countOcc_flatten_append (ks : List Nat) (b : List Char) :
    countOcc sitePat ((ks.map fragChars).flatten ++ b) =
      ks.length + countOcc sitePat b := by
  induction ks with
  | nil => simp
  | cons k ks ih =>
    rw [List.map_cons, List.flatten_cons, List.append_assoc,
      countOcc_append (fragChars k) _ (frag_short_suffix k), countOcc_frag k, ih]
    simp [List.length_cons]
    omega

theorem queryPartLoop_succ_dropLast (m : Nat) :
    (queryPartLoop (m + 1)).dropLast =
      ((List.range m).map fragChars).flatten ++ truncFrag m := by
  rw [queryPartLoop_eq, List.range_succ, List.map_append, List.flatten_append]
  have hfrag : ((List.map fragChars [m]).flatten : List Char) = truncFrag m ++ ['|'] := by
    simp [fragChars, truncFrag, siteHead, siteTail]
  rw [hfrag, ← List.append_assoc, List.dropLast_concat]

theorem countOcc_truncFrag (k : Nat) : countOcc sitePat (truncFrag k) = 1 := by
  apply countOcc_site_cons
  intro c hc
  simp at hc
  rcases hc with rfl | rfl | rfl <;> decide

theorem countOcc_queryPart (n : Nat) (h : 1 ≤ n) :
    countOcc sitePat (queryPartLoop n).dropLast = n := by
  obtain ⟨m, rfl⟩ : ∃ m, n = m + 1 := ⟨n - 1, by omega⟩
  rw [queryPartLoop_succ_dropLast, countOcc_flatten_append, countOcc_truncFrag]
  simp

/-! ## The depth-counter specification of `isSyntaxSafe` -/

theorem parenStep_eq (n : Int) (c : Char) : parenStep n c = n + parenDelta c := by
  by_cases h1 : c = '(' <;> by_cases h2 : c = ')' <;>
    (simp [parenStep, parenDelta, h1, h2]; try omega)

theorem parenBal_nil : parenBal [] = 0 := by
  simp [parenBal]

theorem parenBal_cons (c : Char) (l : List Char) :
    parenBal (c :: l) = parenDelta c + parenBal l := by
  simp only [parenBal, List.count_cons, parenDelta]
  by_cases h1 : c = '(' <;> by_cases h2 : c = ')' <;>
    (simp [h1, h2]; try omega)

theorem syntaxGo_iff (l : List Char) : ∀ n : Int, 0 ≤ n →
    (syntaxGo n l = true ↔
      (∀ pre suf : List Char, pre ++ suf = l → 0 ≤ n + parenBal pre) ∧
      n + parenBal l = 0) := by
  induction l with
  | nil =>
    intro n hn
    constructor
    · intro h
      refine ⟨fun pre suf hps => ?_, ?_⟩
      · rw [(List.append_eq_nil.mp hps).1, parenBal_nil]
        omega
      · rw [parenBal_nil]
        simpa [syntaxGo] using h
    · intro h
      have := h.2
      rw [parenBal_nil] at this
      simp [syntaxGo]
      omega
  | cons c l ih =>
    intro n hn
    by_cases hneg : parenStep n c < 0
    · rw [syntaxGo, if_pos hneg]
      rw [parenStep_eq] at hneg
      constructor
      · intro h
        exact absurd h (by simp)
      · intro h
        have h2 := h.1 [c] l rfl
        rw [parenBal_cons, parenBal_nil] at h2
        omega
    · rw [syntaxGo, if_neg hneg]
      rw [parenStep_eq] at hneg
      rw [parenStep_eq, ih (n + parenDelta c) (by omega)]
      constructor
      · intro h
        refine ⟨fun pre suf hps => ?_, ?_⟩
        · cases pre with
          | nil => rw [parenBal_nil]; omega
          | cons p pre2 =>
            rw [List.cons_append] at hps
            injection hps with hpc htl
            subst hpc
            rw [parenBal_cons]
            have := h.1 pre2 suf htl
            omega
        · rw [parenBal_cons]
          have := h.2
          omega
      · intro h
        refine ⟨fun pre suf hps => ?_, ?_⟩
        · have h2 := h.1 (c :: pre) suf (by rw [List.cons_append, hps])
          rw [parenBal_cons] at h2
          omega
        · have h2 := h.2
          rw [parenBal_cons] at h2
          omega

theorem isSyntaxSafe_iff (s : String) :
    isSyntaxSafe s = true ↔ balancedSpec s := by
  rw [isSyntaxSafe, balancedSpec, syntaxGo_iff s.data 0 le_rfl]
  constructor
  · intro h
    refine ⟨fun pre suf hps => ?_, ?_⟩
    · have := h.1 pre suf hps
      omega
    · have := h.2
      omega
  · intro h
    refine ⟨fun pre suf hps => ?_, ?_⟩
    · have := h.1 pre suf hps
      omega
    · have := h.2
      omega

/-! ## The syntax checker only sees parentheses -/

theorem syntaxGo_filter (l : List Char) : ∀ n : Int, 0 ≤ n →
    syntaxGo n l = syntaxGo n (l.filter isParen) := by
  induction l with
  | nil => intro n _; rfl
  | cons c l ih =>
    intro n hn
    by_cases hp : isParen c = true
    · rw [List.filter_cons_of_pos hp, syntaxGo, syntaxGo]
      by_cases hneg : parenStep n c < 0
      · rw [if_pos hneg, if_pos hneg]
      · rw [if_neg hneg, if_neg hneg, ih (parenStep n c) (by omega)]
    · have hstep : parenStep n c = n := by
        have h1 : ¬c = '(' := fun h => hp (by simp [isParen, h])
        have h2 : ¬c = ')' := fun h => hp (by simp [isParen, h])
        simp [parenStep, h1, h2]
      rw [List.filter_cons_of_neg (by simpa using hp), syntaxGo, hstep,
        if_neg (by omega), ih n hn]

theorem filter_flatMap_esc (l : List Char) :
    (l.flatMap escChar).filter isParen = l.filter isParen := by
  induction l with
  | nil => rfl
  | cons c l ih =>
    rw [List.flatMap_cons, List.filter_append, ih]
    by_cases hp : isParen c = true
    · have hbs : isParen bsChar = false := by decide
      rw [escChar, if_pos hp, List.filter_cons_of_neg (by simp [hbs]),
        List.filter_cons_of_pos hp, List.filter_nil,
        List.filter_cons_of_pos hp]
      rfl
    · rw [escChar, if_neg (by simpa using hp),
        List.filter_cons_of_neg (by simpa using hp), List.filter_nil,
        List.filter_cons_of_neg (by simpa using hp)]
      rfl

theorem length_flatMap_esc (l : List Char) :
    (l.flatMap escChar).length = l.length + (l.filter isParen).length := by
  induction l with
  | nil => rfl
  | cons c l ih =>
    rw [List.flatMap_cons, List.length_append, ih]
    by_cases hp : isParen c = true
    · rw [escChar, if_pos hp, List.filter_cons_of_pos hp]
      simp
      omega
    · rw [escChar, if_neg (by simpa using hp),
        List.filter_cons_of_neg (by simpa using hp)]
      simp
      omega

theorem no_paren_safe (l : List Char) (h : l.filter isParen = []) :
    syntaxGo 0 l = true := by
  rw [syntaxGo_filter l 0 le_rfl, h]
  rfl

/-! ## Every parenthesis in an escaped term sits behind a backslash -/

theorem pOK_flatMap_esc (l : List Char) : ∀ prev, pOK prev (l.flatMap escChar) = true := by
  induction l with
  | nil => intro prev; rfl
  | cons c l ih =>
    intro prev
    by_cases hp : isParen c = true
    · rw [List.flatMap_cons, escChar, if_pos hp, List.cons_append, List.cons_append,
        List.nil_append, pOK, pOK]
      have hbs : isParen bsChar = false := by decide
      simp [hbs, hp, ih c]
    · rw [List.flatMap_cons, escChar, if_neg (by simpa using hp), List.cons_append,
        List.nil_append, pOK]
      simp [(by simpa using hp : isParen c = false), ih c]

theorem escapedOK_flatMap_esc (l : List Char) : escapedOK (l.flatMap escChar) = true := by
  cases l with
  | nil => rfl
  | cons c l =>
    by_cases hp : isParen c = true
    · rw [List.flatMap_cons, escChar, if_pos hp, List.cons_append, List.cons_append,
        List.nil_append, escapedOK, pOK]
      have hbs : isParen bsChar = false := by decide
      simp [hbs, hp, pOK_flatMap_esc l c]
    · rw [List.flatMap_cons, escChar, if_neg (by simpa using hp), List.cons_append,
        List.nil_append, escapedOK]
      simp [(by simpa using hp : isParen c = false), pOK_flatMap_esc l c]

theorem count_flatMap_esc (l : List Char) (a : Char) (ha : a ≠ bsChar) :
    (l.flatMap escChar).count a = l.count a := by
  induction l with
  | nil => rfl
  | cons c l ih =>
    rw [List.flatMap_cons, List.count_append, ih]
    by_cases hp : isParen c = true
    · rw [escChar, if_pos hp]
      simp [List.count_cons, ha]
      omega
    · rw [escChar, if_neg (by simpa using hp)]
      simp [List.count_cons]
      omega

/-! ## Undoing the escape recovers the original term -/

theorem unesc_cons_skip (c : Char) (L : List Char)
    (h : ∀ d rest, L = d :: rest → (c == bsChar && isParen d) = false) :
    unesc (c :: L) = c :: unesc L := by
  cases L with
  | nil => rfl
  | cons d rest => rw [unesc, if_neg (by simp [h d rest rfl])]

theorem unesc_flatMap_esc (l : List Char) : unesc (l.flatMap escChar) = l := by
  induction l with
  | nil => rfl
  | cons c l ih =>
    by_cases hp : isParen c = true
    · rw [List.flatMap_cons, escChar, if_pos hp, List.cons_append, List.cons_append,
        List.nil_append, unesc]
      rw [if_pos (by simp [hp]), ih]
    · rw [List.flatMap_cons, escChar, if_neg (by simpa using hp), List.cons_append,
        List.nil_append]
      rw [unesc_cons_skip c _ ?_, ih]
      intro d rest hdr
      cases l with
      | nil => simp at hdr
      | cons e l2 =>
        rw [List.flatMap_cons] at hdr
        by_cases hpe : isParen e = true
        · rw [escChar, if_pos hpe, List.cons_append, List.cons_append,
            List.nil_append] at hdr
          injection hdr with h1 _
          subst h1
          simp [(by decide : isParen bsChar = false)]
        · rw [escChar, if_neg (by simpa using hpe), List.cons_append,
            List.nil_append] at hdr
          injection hdr with h1 _
          subst h1
          simp [(by simpa using hpe : isParen e = false)]

/-! ## Idempotence of the sanitizer -/

theorem sanitizeChar_fix (c0 c : Char) (h : sanitizeChar c0 = some c) :
    sanitizeChar c = some c := by
  unfold sanitizeChar at h
  split at h
  · exact absurd h (by simp)
  · split at h
    · rw [Option.some.injEq] at h
      subst h
      decide
    · split at h
      · rw [Option.some.injEq] at h
        subst h
        decide
      · rw [Option.some.injEq] at h
        subst h
        rename_i h1 h2 h3
        unfold sanitizeChar
        rw [if_neg h1, if_neg h2, if_neg h3]

theorem mem_filterMap_fix (l : List Char) (c : Char)
    (h : c ∈ l.filterMap sanitizeChar) : sanitizeChar c = some c := by
  rcases List.mem_filterMap.mp h with ⟨a, _, ha⟩
  exact sanitizeChar_fix a c ha

theorem filterMap_fix (l : List Char) (h : ∀ c ∈ l, sanitizeChar c = some c) :
    l.filterMap sanitizeChar = l := by
  induction l with
  | nil => rfl
  | cons c l ih =>
    rw [List.filterMap_cons, h c (List.mem_cons_self c l),
      ih (fun d hd => h d (List.mem_cons_of_mem c hd))]

theorem dropWhile_idem (p : Char → Bool) (l : List Char) :
    (l.dropWhile p).dropWhile p = l.dropWhile p := by
  induction l with
  | nil => rfl
  | cons c l ih =>
    by_cases hc : p c = true
    · rw [List.dropWhile_cons_of_pos hc, ih]
    · rw [List.dropWhile_cons_of_neg (by simpa using hc),
        List.dropWhile_cons_of_neg (by simpa using hc)]

theorem dropWhile_suffix_ex (p : Char → Bool) (l : List Char) :
    ∃ t, t ++ l.dropWhile p = l := by
  induction l with
  | nil => exact ⟨[], rfl⟩
  | cons c l ih =>
    by_cases hc : p c = true
    · rcases ih with ⟨t, ht⟩
      exact ⟨c :: t, by rw [List.dropWhile_cons_of_pos hc, List.cons_append, ht]⟩
    · exact ⟨[], by rw [List.dropWhile_cons_of_neg (by simpa using hc), List.nil_append]⟩

theorem mem_dropWhile_sub (p : Char → Bool) (l : List Char) (c : Char)
    (h : c ∈ l.dropWhile p) : c ∈ l := by
  rcases dropWhile_suffix_ex p l with ⟨t, ht⟩
  rw [← ht]
  exact List.mem_append_right t h

theorem trimRight_prefix_ex (l : List Char) : ∃ u, trimRight l ++ u = l := by
  rcases dropWhile_suffix_ex jsWhitespace l.reverse with ⟨t, ht⟩
  refine ⟨t.reverse, ?_⟩
  have := congrArg List.reverse ht
  simpa [trimRight] using this

theorem mem_trimRight_sub (l : List Char) (c : Char) (h : c ∈ trimRight l) :
    c ∈ l := by
  rcases trimRight_prefix_ex l with ⟨u, hu⟩
  rw [← hu]
  exact List.mem_append_left u h

theorem dropWhile_length_le (p : Char → Bool) (l : List Char) :
    (l.dropWhile p).length ≤ l.length := by
  rcases dropWhile_suffix_ex p l with ⟨t, ht⟩
  have := congrArg List.length ht
  simp at this
  omega

theorem dropWhile_eq_self_head (p : Char → Bool) (l : List Char)
    (h : l.dropWhile p = l) : ∀ c t, l = c :: t → p c = false := by
  intro c t hct
  subst hct
  by_contra hpc
  have hpc2 : p c = true := by
    cases hp2 : p c
    · exact absurd hp2 hpc
    · rfl
  rw [List.dropWhile_cons_of_pos hpc2] at h
  have hlen := congrArg List.length h
  have := dropWhile_length_le p t
  simp at hlen
  omega

theorem trimRight_preserves_head (l : List Char)
    (h : l.dropWhile jsWhitespace = l) :
    (trimRight l).dropWhile jsWhitespace = trimRight l := by
  cases htr : trimRight l with
  | nil => rfl
  | cons c t =>
    rcases trimRight_prefix_ex l with ⟨u, hu⟩
    rw [htr] at hu
    have hc : jsWhitespace c = false :=
      dropWhile_eq_self_head jsWhitespace l h c (t ++ u) (by rw [← hu]; simp)
    rw [List.dropWhile_cons_of_neg (by simp [hc])]

theorem trimRight_idem (l : List Char) : trimRight (trimRight l) = trimRight l := by
  unfold trimRight
  rw [List.reverse_reverse, dropWhile_idem]

theorem trimList_idem (l : List Char) : trimList (trimList l) = trimList l := by
  have h1 : (trimList l).dropWhile jsWhitespace = trimList l := by
    unfold trimList
    exact trimRight_preserves_head (l.dropWhile jsWhitespace) (dropWhile_idem jsWhitespace l)
  show trimRight ((trimList l).dropWhile jsWhitespace) = trimList l
  rw [h1]
  show trimRight (trimRight (l.dropWhile jsWhitespace)) = trimList l
  rw [trimRight_idem]
  rfl

/-- Convert a defaulted lookup into an indexed lookup when in bounds. -/
theorem getD_eq_of_lt (l : List String) (i : Nat) (d : String)
    (h : i < l.length) : l.getD i d = l[i] := by
  rw [List.getD_eq_getElem?_getD, List.getElem?_eq_getElem h]
  rfl

/-! ## The claims -/

/-- Claim C1: for every term and parameters within the documented bounds,
the i-th generated vector is built from exactly
`iterations = max(density - i * decayFactor, 1)` site clauses, where
`decayFactor = max(32 - wordCount, 1)` and `wordCount` counts the
segments of the processed term split on the single space character; the
iteration count is never non-positive.  The site-clause count of the
vector's clause string is witnessed by counting `site:` occurrences. -/
theorem claim1_iterations_formula (term : String) (p : GenerationParams)
    (_hb : paramsInBounds p) (i : Nat) (_hi : i < p.vectorCount) :
    1 ≤ max ((p.density : Int) - (i : Int) * max (32 - ((splitSp term.data).length : Int)) 1) 1 ∧
    countOcc sitePat (queryPartAt term p.density i).data =
      (max ((p.density : Int) - (i : Int) * max (32 - ((splitSp term.data).length : Int)) 1) 1).toNat := by
  have hIter : iterationsAt term p.density i =
      max ((p.density : Int) - (i : Int) * max (32 - ((splitSp term.data).length : Int)) 1) 1 := rfl
  constructor
  · rw [← hIter]
    exact le_max_right _ _
  · rw [← hIter]
    show countOcc sitePat (queryPartLoop (iterationsAt term p.density i).toNat).dropLast = _
    apply countOcc_queryPart
    have h1 : 1 ≤ iterationsAt term p.density i := le_max_right _ _
    omega

/-- Claim C1 witness at term `test`, density 257, vector index 9. -/
theorem claim1_witness :
    1 ≤ max ((257 : Int) - (9 : Int) * max (32 - ((splitSp "test".data).length : Int)) 1) 1 ∧
    countOcc sitePat (queryPartAt "test" 257 9).data =
      (max ((257 : Int) - (9 : Int) * max (32 - ((splitSp "test".data).length : Int)) 1) 1).toNat :=
  claim1_iterations_formula "test" ⟨10, 257, 0⟩
    ⟨by decide, by decide, by decide, by decide, by decide⟩ 9 (by decide)

/-- Claim C2: `buildVectors` returns exactly `vectorCount` URL strings,
ordered by vector index with index 0 first. -/
theorem claim2_vector_count (term : String) (p : GenerationParams) :
    (buildVectors term p).length = p.vectorCount ∧
    ∀ (i : Nat) (h : i < (buildVectors term p).length),
      (buildVectors term p)[i] = vectorUrl term p.density p.pageOffset i := by
  refine ⟨length_buildVectors term p, fun i h => getElem_buildVectors term p i h⟩

/-- Claim C2 witness at term `test`, ten vectors. -/
theorem claim2_witness :
    (buildVectors "test" ⟨10, 257, 0⟩).length = 10 ∧
    (buildVectors "test" ⟨10, 257, 0⟩).getD 9 "" = vectorUrl "test" 257 0 9 := by
  have h := claim2_vector_count "test" ⟨10, 257, 0⟩
  have h9 : 9 < (buildVectors "test" ⟨10, 257, 0⟩).length := by
    rw [h.1]
    decide
  exact ⟨h.1, by rw [getD_eq_of_lt _ 9 "" h9]; exact h.2 9 h9⟩

/-- Claim C3: each vector's clause string is the concatenation of the
fragments `site:*.*.<ii>.* |` for `ii` below the iteration count, with
exactly one final character removed; in particular, at term `test`,
vectorCount 10, density 257, pageOffset 0, the index-9 URL encodes a
query whose site clause holds exactly one `site:*.*.0.*` fragment with
its trailing separator stripped. -/
theorem claim3_truncated_clause :
    (∀ (term : String) (density i : Nat),
      queryPartAt term density i =
        ⟨(((List.range (iterationsAt term density i).toNat).map fragChars).flatten).dropLast⟩ ∧
      (queryPartAt term density i).length =
        (((List.range (iterationsAt term density i).toNat).map fragChars).flatten).length - 1) ∧
    (buildVectors "test" ⟨10, 257, 0⟩).getD 9 "" =
      "https://www.google.com/search?q=" ++ encodeURIComponent "(test) (site:*.*.0.* )" ++
        "&start=0" ∧
    countOcc ['s', 'i', 't', 'e', ':', '*', '.', '*', '.', '0', '.', '*']
      (queryPartAt "test" 257 9).data = 1 := by
  refine ⟨fun term density i => ⟨?_, ?_⟩, by rfl, by decide⟩
  · show (⟨(queryPartLoop (iterationsAt term density i).toNat).dropLast⟩ : String) = _
    rw [queryPartLoop_eq]
  · show ((queryPartLoop (iterationsAt term density i).toNat).dropLast).length = _
    rw [queryPartLoop_eq, List.length_dropLast]

/-- Claim C4: every generated URL is exactly
`https://www.google.com/search?q=<encoded-query>&start=<pageOffset*10>`,
with the query the percent-encoding of `(term) (clause)` and the start
numeral denoting `pageOffset * 10`. -/
theorem claim4_url_format (term : String) (p : GenerationParams) (i : Nat)
    (h : i < (buildVectors term p).length) :
    (buildVectors term p)[i] =
      "https://www.google.com/search?q=" ++
        encodeURIComponent ("(" ++ term ++ ") (" ++ queryPartAt term p.density i ++ ")") ++
        "&start=" ++ (⟨natToDigits (p.pageOffset * 10)⟩ : String) ∧
    digitsToNat (natToDigits (p.pageOffset * 10)) = p.pageOffset * 10 := by
  constructor
  · rw [getElem_buildVectors term p i h]
    rfl
  · exact digitsToNat_natToDigits _

/-- Claim C4 witness at term `test`, pageOffset 3, vector index 0. -/
theorem claim4_witness :
    (buildVectors "test" ⟨10, 257, 3⟩).getD 0 "" =
      "https://www.google.com/search?q=" ++
        encodeURIComponent ("(" ++ "test" ++ ") (" ++ queryPartAt "test" 257 0 ++ ")") ++
        "&start=" ++ (⟨natToDigits 30⟩ : String) ∧
    digitsToNat (natToDigits 30) = 30 := by
  have h0 : 0 < (buildVectors "test" ⟨10, 257, 3⟩).length := by
    simp [buildVectors]
  have h := claim4_url_format "test" ⟨10, 257, 3⟩ 0 h0
  exact ⟨by rw [getD_eq_of_lt _ 0 "" h0]; exact h.1, h.2⟩

/-- Claim C5 counterexample: in the repository's own variant without the
`max(...,1)` floor (App.tsx, fixed density 257), a non-positive iteration
count IS reached under the documented parameter values — term `test`
(one word) at vector index 9 gives `257 - 9*31 = -22` — and the
one-character truncation then acts on the empty clause and returns the
empty string: the slice is total, no out-of-bounds access occurs, and
the URL is still produced. -/
theorem claim5_counterexample :
    iterationsNoFloor "test" 9 = -22 ∧
    queryPartV23 "test" 9 = "" ∧
    vectorUrlV23 "test" 9 =
      "https://www.google.com/search?q=" ++ encodeURIComponent "(test) ()" := by
  exact ⟨by decide, by rfl, by rfl⟩

/-- Claim C5 (amended): the floored iteration count
`max(density - i*decayFactor, 1)` is at least 1 for all inputs, so the
zero-iteration case never occurs in the floored builder; in the variant
without the floor, a non-positive iteration bound yields an empty clause
and the one-character truncation returns the empty string (a total
operation, not an out-of-bounds slice). -/
theorem claim5_floor_guarantees (term : String) (density i : Nat) :
    1 ≤ iterationsAt term density i ∧
    (iterationsNoFloor term i ≤ 0 → queryPartV23 term i = "") := by
  constructor
  · exact le_max_right _ _
  · intro h
    have h0 : (iterationsNoFloor term i).toNat = 0 := by
      omega
    show (⟨(queryPartLoop (iterationsNoFloor term i).toNat).dropLast⟩ : String) = ""
    rw [h0]
    rfl

/-- Claim C5 witness at term `test`, density 257, vector index 9. -/
theorem claim5_witness :
    1 ≤ iterationsAt "test" 257 9 ∧ queryPartV23 "test" 9 = "" :=
  ⟨(claim5_floor_guarantees "test" 257 9).1,
   (claim5_floor_guarantees "test" 257 9).2 (by decide)⟩

/-- Claim C6: `isSyntaxSafe` returns true exactly when the left-to-right
depth counter (up at `(`, down at `)`, other characters ignored) never
goes negative and ends at zero; with the spec's concrete examples. -/
theorem claim6_depth_spec :
    (∀ s : String, isSyntaxSafe s = true ↔ balancedSpec s) ∧
    isSyntaxSafe "" = true ∧ isSyntaxSafe "()" = true ∧
    isSyntaxSafe "(a(b)c)" = true ∧ isSyntaxSafe ")(" = false ∧
    isSyntaxSafe "((" = false ∧ isSyntaxSafe ")" = false := by
  exact ⟨isSyntaxSafe_iff, by decide, by decide, by decide, by decide, by decide, by decide⟩

/-- Claim C6 witness: instantiating the equivalence at `()` and
discharging its hypothesis yields the zero final balance. -/
theorem claim6_witness : parenBal "()".data = 0 :=
  ((claim6_depth_spec.1 "()").mp (by decide)).2

/-- Claim C7: `processTerm` is the identity exactly on balanced terms;
on unbalanced terms every parenthesis of the result directly follows a
backslash, removing the inserted backslashes restores the original
characters, and the parenthesis counts are unchanged. -/
theorem claim7_processTerm_escapes (term : String) :
    (isSyntaxSafe term = true → processTerm term = term) ∧
    (isSyntaxSafe term = false →
      escapedOK (processTerm term).data = true ∧
      unesc (processTerm term).data = term.data ∧
      (processTerm term).data.count '(' = term.data.count '(' ∧
      (processTerm term).data.count ')' = term.data.count ')') := by
  constructor
  · intro h
    rw [processTerm, if_pos h]
  · intro h
    rw [processTerm, if_neg (by simp [h])]
    exact ⟨escapedOK_flatMap_esc term.data, unesc_flatMap_esc term.data,
      count_flatMap_esc term.data '(' (by decide),
      count_flatMap_esc term.data ')' (by decide)⟩

/-- Claim C7 witness at the balanced term `(ok)` and the unbalanced
term `)(`. -/
theorem claim7_witness :
    processTerm "(ok)" = "(ok)" ∧ unesc (processTerm ")(").data = ")(".data :=
  ⟨(claim7_processTerm_escapes "(ok)").1 (by decide),
   ((claim7_processTerm_escapes ")(").2 (by decide)).2.1⟩

/-- Claim C8: the sanitizer is idempotent. -/
theorem claim8_sanitize_idempotent (s : String) :
    sanitizeInput (sanitizeInput s) = sanitizeInput s := by
  have hfix : ∀ c ∈ trimList (s.data.filterMap sanitizeChar), sanitizeChar c = some c := by
    intro c hc
    have hc2 : c ∈ (s.data.filterMap sanitizeChar).dropWhile jsWhitespace :=
      mem_trimRight_sub _ c hc
    exact mem_filterMap_fix _ c (mem_dropWhile_sub _ _ c hc2)
  show (⟨trimList ((sanitizeInput s).data.filterMap sanitizeChar)⟩ : String) = sanitizeInput s
  have hdata : (sanitizeInput s).data = trimList (s.data.filterMap sanitizeChar) := rfl
  rw [hdata, filterMap_fix _ hfix, trimList_idem]
  rfl

/-- Claim C9: whenever the density exceeds 600 a density-risk diagnostic
is emitted, and generation still produces the full URL list. -/
theorem claim9_density_risk (raw term : String) (p : GenerationParams)
    (h : 600 < p.density) :
    DiagKind.densityRisk ∈ requestDiagnostics raw p.density ∧
    (buildVectors term p).length = p.vectorCount := by
  constructor
  · rw [requestDiagnostics, if_pos h]
    exact List.mem_append_right _ (List.mem_cons_self _ _)
  · simp [buildVectors]

/-- Claim C9 witness at density 700. -/
theorem claim9_witness :
    DiagKind.densityRisk ∈ requestDiagnostics "test" 700 ∧
    (buildVectors "test" ⟨10, 700, 0⟩).length = 10 :=
  claim9_density_risk "test" "test" ⟨10, 700, 0⟩ (by decide)

/-- Claim C10: escaping does not change the balance verdict — the
checker ignores backslashes — so an unbalanced term stays unbalanced
after `processTerm`, and consequently `processTerm` is not idempotent on
unbalanced inputs (a second application escapes again and the string
grows). -/
theorem claim10_balance_invariant (t : String) :
    isSyntaxSafe (processTerm t) = isSyntaxSafe t ∧
    (isSyntaxSafe t = false → processTerm (processTerm t) ≠ processTerm t) := by
  have heq : isSyntaxSafe (processTerm t) = isSyntaxSafe t := by
    by_cases h : isSyntaxSafe t = true
    · rw [processTerm, if_pos h]
    · have hf : isSyntaxSafe t = false := by simpa using h
      rw [processTerm, if_neg (by simp [hf])]
      show syntaxGo 0 (t.data.flatMap escChar) = isSyntaxSafe t
      rw [syntaxGo_filter _ 0 le_rfl, filter_flatMap_esc, ← syntaxGo_filter _ 0 le_rfl]
      rfl
  refine ⟨heq, fun hf => ?_⟩
  have hunb2 : isSyntaxSafe (processTerm t) = false := heq.trans hf
  rw [processTerm, if_neg (by simp [hunb2])]
  intro hcontra
  have hdata : (processTerm t).data.flatMap escChar = (processTerm t).data := by
    have := congrArg String.data hcontra
    simpa using this
  have hlen := congrArg List.length hdata
  rw [length_flatMap_esc] at hlen
  have hnil : (processTerm t).data.filter isParen = [] :=
    List.length_eq_zero.mp (by omega)
  have hsafe : syntaxGo 0 (processTerm t).data = true := no_paren_safe _ hnil
  rw [show syntaxGo 0 (processTerm t).data = isSyntaxSafe (processTerm t) from rfl,
    hunb2] at hsafe
  exact absurd hsafe (by simp)

/-- Claim C10 witness at the unbalanced term `(`. -/
theorem claim10_witness :
    isSyntaxSafe (processTerm "(") = isSyntaxSafe "(" ∧
    processTerm (processTerm "(") ≠ processTerm "(" :=
  ⟨(claim10_balance_invariant "(").1,
   (claim10_balance_invariant "(").2 (by decide)⟩
